import Mathlib

/-!
# Verification of the schema-driven binary row codec (`binary_processor`)

Shallow embedding of `src/binary_processor/src/lib.rs` (Schema model,
`BatchReader`) and `src/binary_processor/src/bin/reader.rs`
(`read_channels`, the parallel bulk decoder).

Modelling conventions:
* The memory-mapped file (`Mmap`) is a `List Nat` of bytes; reading a byte
  out of bounds (a panic in Rust) is modelled totally via `List.getD _ _ 0`.
  Every claim that depends on byte values is accompanied by an in-bounds
  argument, so the default is never observed.
* `f64` values are represented by their 64-bit little-endian bit patterns
  (`Nat`): the code never performs floating-point arithmetic, it only moves
  8-byte patterns from the file into buffers, so this representation is
  exact and makes "bit-identical" claims literal equalities.
* `i32` values are `Int`, obtained from the 32-bit little-endian word by
  two's-complement reinterpretation.
* `rayon`'s `par_iter().map(...).collect()` is modelled by `List.map`: it
  deterministically produces results in chunk-index order, which is the only
  observable of the parallel phase.  The `Duration` return values of
  `read_channels` are timing-only and are not modelled.
-/

/-- `DataType` from lib.rs: the three channel value kinds. -/
inductive DataType : Type
  | Bit
  | Int
  | Float
deriving DecidableEq, Repr

/-- `DataType::size` from lib.rs: the encoded byte width of one value. -/
def DataType.size : DataType → Nat
  | .Bit => 1
  | .Int => 4
  | .Float => 8

/-- `Channel` from lib.rs. -/
structure Channel : Type where
  name : String
  data_type : DataType
deriving DecidableEq, Repr

/-- `Schema` from lib.rs: an ordered sequence of channels. -/
structure Schema : Type where
  channels : List Channel
deriving DecidableEq, Repr

/-- `Schema::row_size` from lib.rs: 8 timestamp bytes plus the channel widths. -/
def Schema.row_size (s : Schema) : Nat :=
  8 + (s.channels.map (fun c => c.data_type.size)).sum

/-- `ChannelData` from lib.rs: a decoded column buffer tagged with its kind.
`Float` buffers hold 64-bit IEEE-754 bit patterns (see module comment). -/
inductive ChannelData : Type
  | Bit (v : List Nat)
  | Int (v : List Int)
  | Float (v : List Nat)
deriving DecidableEq, Repr

/-- `ChannelData::len` from lib.rs. -/
def ChannelData.len : ChannelData → Nat
  | .Bit v => v.length
  | .Int v => v.length
  | .Float v => v.length

/-- The runtime tag of a column buffer (the discriminant of the Rust enum). -/
def ChannelData.tag : ChannelData → DataType
  | .Bit _ => .Bit
  | .Int _ => .Int
  | .Float _ => .Float

/-- Bytes consumed from the row cursor by one `push` into this buffer
(`read_u8` = 1, `read_i32` = 4, `read_f64` = 8). -/
def ChannelData.width : ChannelData → Nat
  | .Bit _ => 1
  | .Int _ => 4
  | .Float _ => 8

/-- Byte `i` of the mapped file (out of bounds, impossible in verified use,
defaults to 0). -/
def byteAt (f : List Nat) (i : Nat) : Nat :=
  f.getD i 0

/-- Little-endian read of `w` bytes at offset `off`, as an unsigned word.
This is what `byteorder::LittleEndian` reads compute. -/
def readLE (f : List Nat) (off : Nat) : Nat → Nat
  | 0 => 0
  | w + 1 => byteAt f off + 256 * readLE f (off + 1) w

/-- Two's-complement reinterpretation of a 32-bit word, i.e. `read_i32`
applied to the word `readLE f off 4`. -/
def toInt32 (w : Nat) : Int :=
  if w < 2 ^ 31 then (w : Int) else (w : Int) - 2 ^ 32

/-- The buffer-initialisation loop shared by lib.rs (`read_batch`, lines
105-117) and reader.rs (lines 52-65): one empty buffer per channel, tagged
by the channel's `data_type` (capacity hints have no observable effect). -/
def initBuffers (s : Schema) : List ChannelData :=
  s.channels.map fun c =>
    match c.data_type with
    | .Bit => ChannelData.Bit []
    | .Int => ChannelData.Int []
    | .Float => ChannelData.Float []

/-- One iteration of the inner per-channel loop (lib.rs lines 140-146,
reader.rs lines 76-86): dispatch on the buffer's own tag, read the value of
that width at the cursor position `off`, and push it. -/
def ChannelData.pushFrom (cd : ChannelData) (f : List Nat) (off : Nat) : ChannelData :=
  match cd with
  | .Bit v => .Bit (v ++ [byteAt f off])
  | .Int v => .Int (v ++ [toInt32 (readLE f off 4)])
  | .Float v => .Float (v ++ [readLE f off 8])

/-- Decode one row into the buffer list: the cursor starts at `off` (the
first byte after the 8-byte timestamp of the row) and advances by the width
of each value read.  In lib.rs the cursor covers the whole row and first
reads-and-discards the timestamp; in reader.rs the slice starts at
`row_start + pre_skip`; both leave the cursor at `row*row_size + 8` before
the channel loop, which is the `off` passed here. -/
def decodeRowInto (f : List Nat) : List ChannelData → Nat → List ChannelData
  | [], _ => []
  | cd :: rest, off => cd.pushFrom f off :: decodeRowInto f rest (off + cd.width)

/-- The per-row loop (lib.rs lines 133-147, reader.rs lines 70-89): decode
`n` consecutive rows starting at row index `row` into `bufs`. -/
def decodeRows (f : List Nat) (rs : Nat) : Nat → Nat → List ChannelData → List ChannelData
  | _, 0, bufs => bufs
  | row, n + 1, bufs => decodeRows f rs (row + 1) n (decodeRowInto f bufs (row * rs + 8))

/-- `BatchReader` from lib.rs.  `mmap` holds the mapped file's bytes. -/
structure BatchReader : Type where
  mmap : List Nat
  schema : Schema
  row_size : Nat
  total_rows : Nat
  current_row : Nat
deriving DecidableEq, Repr

/-- `BatchReader::new` from lib.rs (the file is already given as bytes, so
the `io::Result` from `File::open`/`Mmap::map` cannot fail here):
`row_size = schema.row_size()`, `total_rows = mmap.len() / row_size`,
cursor at 0. -/
def BatchReader.new (file : List Nat) (s : Schema) : BatchReader :=
  { mmap := file
    schema := s
    row_size := s.row_size
    total_rows := file.length / s.row_size
    current_row := 0 }

/-- `BatchReader::read_batch` from lib.rs.  Rust mutates `self`; here the
updated reader is returned alongside the `Option` result. -/
def BatchReader.read_batch (r : BatchReader) (batch_size : Nat) :
    Option (List ChannelData) × BatchReader :=
  if r.total_rows ≤ r.current_row then
    (none, r)
  else
    let rows_to_read := min batch_size (r.total_rows - r.current_row)
    let batch_results := decodeRows r.mmap r.row_size r.current_row rows_to_read
      (initBuffers r.schema)
    (some batch_results, { r with current_row := r.current_row + rows_to_read })

/-- The loop body of `BatchReader::read_timestamps` (lib.rs lines 156-165):
iterate `count` times from row `row`, breaking as soon as the row index
reaches `total_rows`; each iteration reads the row's leading 8-byte
little-endian timestamp. -/
def readTimestampsAux (f : List Nat) (rs total : Nat) : Nat → Nat → List Nat
  | _, 0 => []
  | row, count + 1 =>
    if total ≤ row then []
    else readLE f (row * rs) 8 :: readTimestampsAux f rs total (row + 1) count

/-- `BatchReader::read_timestamps` from lib.rs (takes `&self`: no state
change, so it is a plain function of the reader). -/
def BatchReader.read_timestamps (r : BatchReader) (start_row count : Nat) : List Nat :=
  readTimestampsAux r.mmap r.row_size r.total_rows start_row count

/-- One arm of the merge loop of reader.rs (lines 111-116): extend the
destination buffer with the source buffer when the tags match; the
`unreachable!("Type mismatch during merge")` arm is `none`. -/
def mergeChannel : ChannelData → ChannelData → Option ChannelData
  | .Bit d, .Bit s => some (.Bit (d ++ s))
  | .Int d, .Int s => some (.Int (d ++ s))
  | .Float d, .Float s => some (.Float (d ++ s))
  | _, _ => none

/-- The inner merge loop of reader.rs (lines 110-117): positionally merge a
chunk's buffers into the accumulated final buffers.  An index mismatch (a
panic in Rust, impossible by construction) is also `none`. -/
def mergeLists : List ChannelData → List ChannelData → Option (List ChannelData)
  | [], [] => some []
  | d :: ds, s :: ss =>
    match mergeChannel d s, mergeLists ds ss with
    | some m, some ms => some (m :: ms)
    | _, _ => none
  | _, _ => none

/-- The outer merge loop of reader.rs (lines 109-118): fold the per-chunk
results, in chunk-index order, into the accumulator. -/
def mergeAll (acc : List ChannelData) : List (List ChannelData) → Option (List ChannelData)
  | [] => some acc
  | b :: bs =>
    match mergeLists acc b with
    | some m => mergeAll m bs
    | none => none

/-- The chunk table of reader.rs (lines 39-45): chunk `i` covers rows
`[i*chunk_size, min ((i+1)*chunk_size) total_rows)`. -/
def chunkList (chunk_size total_rows : Nat) : List (Nat × Nat) :=
  let num_chunks := (total_rows + chunk_size - 1) / chunk_size
  (List.range num_chunks).map fun i =>
    (i * chunk_size, min ((i + 1) * chunk_size) total_rows)

/-- `read_channels` from reader.rs with the chunk-size constant lifted to a
parameter (the source fixes `chunk_size = 10_000`; `read_channels` below
instantiates it).  Returns the final merged column buffers; the two
`Duration`s are timing-only and not modelled, and the `io::Result` cannot
fail once the file bytes are given.  `none` models the `unreachable!` panic
in the merge. -/
def read_channels_chunked (chunk_size : Nat) (mmap : List Nat) (schema : Schema) :
    Option (List ChannelData) :=
  let pre_skip := 8
  let block_size := (schema.channels.map fun c => c.data_type.size).sum
  let row_size := pre_skip + block_size
  let total_rows := mmap.length / row_size
  let chunks := chunkList chunk_size total_rows
  let chunk_outputs := chunks.map fun p =>
    decodeRows mmap row_size p.1 (p.2 - p.1) (initBuffers schema)
  mergeAll (initBuffers schema) chunk_outputs

/-- `read_channels` from reader.rs, with its constant `chunk_size = 10_000`. -/
def read_channels (mmap : List Nat) (schema : Schema) : Option (List ChannelData) :=
  read_channels_chunked 10000 mmap schema

/-- The column of values of kind `t` read at the given absolute byte
offsets (spec-shaped characterisation used to state correctness). -/
def colFor (t : DataType) (f : List Nat) (offs : List Nat) : ChannelData :=
  match t with
  | .Bit => .Bit (offs.map fun o => byteAt f o)
  | .Int => .Int (offs.map fun o => toInt32 (readLE f o 4))
  | .Float => .Float (offs.map fun o => readLE f o 8)

/-- Spec-shaped columnar decode: channel `i` of the result holds, for each
of the `n` rows starting at row `a`, the value of its kind read at the
cumulative offset `off` (8 plus the widths of the preceding channels)
within the row. -/
def batchColsAux (f : List Nat) (rs a n : Nat) : List Channel → Nat → List ChannelData
  | [], _ => []
  | c :: cs, off =>
    colFor c.data_type f ((List.range n).map fun j => (a + j) * rs + off) ::
      batchColsAux f rs a n cs (off + c.data_type.size)

/-- Spec-shaped decode of rows `[a, a+n)` of file `f` under schema `s`:
one column per channel in schema order, values at cumulative offsets. -/
def batchCols (s : Schema) (f : List Nat) (a n : Nat) : List ChannelData :=
  batchColsAux f s.row_size a n s.channels 8

/-- Drive a `BatchReader` with a list of requested batch sizes, collecting
the `some` results in call order together with the final reader state. -/
def runBatches (r : BatchReader) : List Nat → List (List ChannelData) × BatchReader
  | [] => ([], r)
  | bs :: rest =>
    match r.read_batch bs with
    | (none, r1) => runBatches r1 rest
    | (some cols, r1) =>
      let p := runBatches r1 rest
      (cols :: p.1, p.2)

/-! ## Concrete scenario data (spec §8)

Schema `[{"ch_0","bit"},{"ch_1","int"},{"ch_2","float"}]`, row size
8+1+4+8 = 21.  Row 0 encodes timestamp 1000.0 (IEEE-754 bit pattern
0x408F400000000000 = 4652007308841189376, little-endian bytes
`[0,0,0,0,0,64,143,64]`), bit 1, int -5 (bytes `[251,255,255,255]`), float
2.5 (bit pattern 0x4004000000000000 = 4612811918334230528, bytes
`[0,0,0,0,0,0,4,64]`).  Rows 1 and 2 hold arbitrary bytes.  `fileScnX`
appends a 10-byte partial fourth row. -/

def schemaScn : Schema :=
  ⟨[⟨"ch_0", .Bit⟩, ⟨"ch_1", .Int⟩, ⟨"ch_2", .Float⟩]⟩

def row0 : List Nat :=
  [0, 0, 0, 0, 0, 64, 143, 64] ++ [1] ++ [251, 255, 255, 255] ++ [0, 0, 0, 0, 0, 0, 4, 64]

def row1 : List Nat :=
  [1, 2, 3, 4, 5, 6, 7, 8] ++ [0] ++ [1, 0, 0, 0] ++ [8, 7, 6, 5, 4, 3, 2, 1]

def row2 : List Nat :=
  [10, 20, 30, 40, 50, 60, 70, 80] ++ [1] ++ [2, 0, 0, 0] ++
    [11, 12, 13, 14, 15, 16, 17, 18]

def fileScn3 : List Nat := row0 ++ row1 ++ row2

def fileScnX : List Nat := fileScn3 ++ [9, 9, 9, 9, 9, 9, 9, 9, 9, 9]

/-! ## Basic lemmas about buffers and columns -/

theorem colFor_pushFrom (t : DataType) (f : List Nat) (offs : List Nat) (o : Nat) :
    (colFor t f offs).pushFrom f o = colFor t f (offs ++ [o]) := by
  cases t <;> simp [colFor, ChannelData.pushFrom]

theorem colFor_width (t : DataType) (f : List Nat) (offs : List Nat) :
    (colFor t f offs).width = t.size := by
  cases t <;> rfl

theorem colFor_tag (t : DataType) (f : List Nat) (offs : List Nat) :
    (colFor t f offs).tag = t := by
  cases t <;> rfl

theorem colFor_len (t : DataType) (f : List Nat) (offs : List Nat) :
    (colFor t f offs).len = offs.length := by
  cases t <;> simp [colFor, ChannelData.len]

theorem mergeChannel_colFor (t : DataType) (f : List Nat) (o1 o2 : List Nat) :
    mergeChannel (colFor t f o1) (colFor t f o2) = some (colFor t f (o1 ++ o2)) := by
  cases t <;> simp [colFor, mergeChannel]

/-! ## The row loops compute the spec-shaped columnar decode -/

theorem decodeRowInto_batchColsAux (f : List Nat) (rs a n : Nat) :
    ∀ (cs : List Channel) (off : Nat),
    decodeRowInto f (batchColsAux f rs a n cs off) ((a + n) * rs + off) =
      batchColsAux f rs a (n + 1) cs off := by
  intro cs
  induction cs with
  | nil => intro off; rfl
  | cons c cs ih =>
    intro off
    simp only [batchColsAux, decodeRowInto, colFor_pushFrom, colFor_width]
    congr 1
    · rw [List.range_succ]
      simp
    · rw [Nat.add_assoc]
      exact ih (off + c.data_type.size)

theorem decodeRows_batchColsAux (f : List Nat) (rs : Nat) :
    ∀ (m n b : Nat) (cs : List Channel),
    decodeRows f rs (b + n) m (batchColsAux f rs b n cs 8) =
      batchColsAux f rs b (n + m) cs 8 := by
  intro m
  induction m with
  | zero => intro n b cs; rfl
  | succ m ih =>
    intro n b cs
    simp only [decodeRows]
    rw [decodeRowInto_batchColsAux]
    rw [show n + (m + 1) = (n + 1) + m by omega]
    exact ih (n + 1) b cs

theorem initBuffers_eq_batchColsAux (f : List Nat) (rs a : Nat) :
    ∀ (cs : List Channel) (off : Nat),
    (cs.map fun c =>
      match c.data_type with
      | .Bit => ChannelData.Bit []
      | .Int => ChannelData.Int []
      | .Float => ChannelData.Float []) = batchColsAux f rs a 0 cs off := by
  intro cs
  induction cs with
  | nil => intro off; rfl
  | cons c cs ih =>
    intro off
    simp only [List.map_cons, batchColsAux, List.range_zero, List.map_nil]
    rw [← ih (off + c.data_type.size)]
    cases c.data_type <;> rfl

theorem decodeRows_init (f : List Nat) (rs a m : Nat) (s : Schema) :
    decodeRows f rs a m (initBuffers s) = batchColsAux f rs a m s.channels 8 := by
  rw [initBuffers, initBuffers_eq_batchColsAux f rs a s.channels 8]
  have h := decodeRows_batchColsAux f rs m 0 a s.channels
  simpa using h

/-! ## Merge lemmas -/

theorem mergeLists_batchColsAux (f : List Nat) (rs b n m : Nat) :
    ∀ (cs : List Channel) (off : Nat),
    mergeLists (batchColsAux f rs b n cs off) (batchColsAux f rs (b + n) m cs off) =
      some (batchColsAux f rs b (n + m) cs off) := by
  intro cs
  induction cs with
  | nil => intro off; rfl
  | cons c cs ih =>
    intro off
    simp only [batchColsAux, mergeLists]
    rw [mergeChannel_colFor, ih (off + c.data_type.size)]
    have hoffs :
        (((List.range n).map fun j => (b + j) * rs + off) ++
          ((List.range m).map fun j => (b + n + j) * rs + off)) =
        (List.range (n + m)).map fun j => (b + j) * rs + off := by
      rw [List.range_add, List.map_append, List.map_map]
      congr 1
      apply List.map_congr_left
      intro j _
      simp only [Function.comp_apply]
      rw [Nat.add_assoc]
    rw [hoffs]

theorem mergeAll_append (acc : List ChannelData) (l1 l2 : List (List ChannelData)) :
    mergeAll acc (l1 ++ l2) = (mergeAll acc l1).bind fun m => mergeAll m l2 := by
  induction l1 generalizing acc with
  | nil => simp [mergeAll]
  | cons b bs ih =>
    simp only [List.cons_append, mergeAll]
    cases mergeLists acc b with
    | none => rfl
    | some m => exact ih m

/-! ## The bulk decoder computes the full-range columnar decode -/

theorem mergeAll_chunks (f : List Nat) (s : Schema) (cs total : Nat) (h : 0 < cs) :
    ∀ K, K ≤ (total + cs - 1) / cs →
    mergeAll (initBuffers s)
      (((List.range K).map fun i => (i * cs, min ((i + 1) * cs) total)).map
        fun p => decodeRows f s.row_size p.1 (p.2 - p.1) (initBuffers s)) =
      some (batchColsAux f s.row_size 0 (min (K * cs) total) s.channels 8) := by
  intro K
  induction K with
  | zero =>
    intro _
    simp only [List.range_zero, List.map_nil, mergeAll, Nat.zero_mul, Nat.zero_min]
    rw [initBuffers, initBuffers_eq_batchColsAux f s.row_size 0 s.channels 8]
  | succ K ih =>
    intro hK
    have hK1 : K ≤ (total + cs - 1) / cs := Nat.le_of_succ_le hK
    have hmul : (K + 1) * cs ≤ total + cs - 1 :=
      (Nat.le_div_iff_mul_le h).mp hK
    have hsm : (K + 1) * cs = K * cs + cs := by rw [Nat.succ_mul]
    have hlt : K * cs < total := by omega
    rw [List.range_succ, List.map_append, List.map_append, mergeAll_append, ih hK1]
    simp only [List.map_cons, List.map_nil, Option.some_bind]
    rw [Nat.min_eq_left (Nat.le_of_lt hlt)]
    show mergeAll _ [decodeRows f s.row_size (K * cs) (min ((K + 1) * cs) total - K * cs) (initBuffers s)] = _
    rw [decodeRows_init]
    simp only [mergeAll]
    have hmerge := mergeLists_batchColsAux f s.row_size 0 (K * cs)
      (min ((K + 1) * cs) total - K * cs) s.channels 8
    rw [Nat.zero_add] at hmerge
    rw [hmerge]
    simp only [mergeAll]
    congr 2
    omega

theorem read_channels_chunked_eq (cs : Nat) (h : 0 < cs) (f : List Nat) (s : Schema) :
    read_channels_chunked cs f s =
      some (batchCols s f 0 (f.length / s.row_size)) := by
  show mergeAll (initBuffers s)
      ((chunkList cs (f.length / s.row_size)).map fun p =>
        decodeRows f s.row_size p.1 (p.2 - p.1) (initBuffers s)) = _
  rw [chunkList]
  have htot : f.length / s.row_size ≤
      ((f.length / s.row_size + cs - 1) / cs) * cs := by
    have h1 := Nat.div_add_mod (f.length / s.row_size + cs - 1) cs
    have h2 := Nat.mod_lt (f.length / s.row_size + cs - 1) h
    have h3 : cs * ((f.length / s.row_size + cs - 1) / cs) =
        ((f.length / s.row_size + cs - 1) / cs) * cs := Nat.mul_comm _ _
    omega
  have := mergeAll_chunks f s cs (f.length / s.row_size) h
    ((f.length / s.row_size + cs - 1) / cs) (Nat.le_refl _)
  rw [Nat.min_eq_right htot] at this
  exact this

/-! ## Streaming reader invariant -/

theorem runBatches_spec (sizes : List Nat) :
    ∀ r : BatchReader, r.current_row ≤ r.total_rows →
    (runBatches r sizes).2.mmap = r.mmap ∧
    (runBatches r sizes).2.schema = r.schema ∧
    (runBatches r sizes).2.row_size = r.row_size ∧
    (runBatches r sizes).2.total_rows = r.total_rows ∧
    (runBatches r sizes).2.current_row ≤ r.total_rows ∧
    mergeAll (batchColsAux r.mmap r.row_size 0 r.current_row r.schema.channels 8)
        (runBatches r sizes).1 =
      some (batchColsAux r.mmap r.row_size 0
        (runBatches r sizes).2.current_row r.schema.channels 8) := by
  induction sizes with
  | nil =>
    intro r h
    exact ⟨rfl, rfl, rfl, rfl, h, by simp [runBatches, mergeAll]⟩
  | cons bs rest ih =>
    intro r h
    by_cases hc : r.total_rows ≤ r.current_row
    · simp only [runBatches, BatchReader.read_batch, if_pos hc]
      exact ih r h
    · have hlt : r.current_row < r.total_rows := Nat.lt_of_not_le hc
      simp only [runBatches, BatchReader.read_batch, if_neg hc]
      set k := min bs (r.total_rows - r.current_row) with hk
      set r1 : BatchReader := { r with current_row := r.current_row + k } with hr1
      have hle : r1.current_row ≤ r1.total_rows := by
        simp only [hr1]
        omega
      have IH := ih r1 hle
      have hm : r1.mmap = r.mmap := rfl
      have hs : r1.schema = r.schema := rfl
      have hrs : r1.row_size = r.row_size := rfl
      have htr : r1.total_rows = r.total_rows := rfl
      refine ⟨IH.1, IH.2.1, IH.2.2.1, IH.2.2.2.1, IH.2.2.2.2.1, ?_⟩
      simp only [mergeAll, decodeRows_init]
      have hmerge := mergeLists_batchColsAux r.mmap r.row_size 0 r.current_row k
        r.schema.channels 8
      rw [Nat.zero_add] at hmerge
      rw [hmerge]
      exact IH.2.2.2.2.2

/-! ## Shape lemmas -/

theorem batchColsAux_forall2 (f : List Nat) (rs a n : Nat) :
    ∀ (cs : List Channel) (off : Nat),
    List.Forall₂ (fun cd c => cd.tag = c.data_type ∧ cd.len = n)
      (batchColsAux f rs a n cs off) cs := by
  intro cs
  induction cs with
  | nil => intro off; exact List.Forall₂.nil
  | cons c cs ih =>
    intro off
    refine List.Forall₂.cons ⟨colFor_tag _ _ _, ?_⟩ (ih (off + c.data_type.size))
    rw [colFor_len]
    simp

theorem batchColsAux_len_mem (f : List Nat) (rs a n : Nat) :
    ∀ (cs : List Channel) (off : Nat) (cd : ChannelData),
    cd ∈ batchColsAux f rs a n cs off → cd.len = n := by
  intro cs
  induction cs with
  | nil => intro off cd h; cases h
  | cons c cs ih =>
    intro off cd h
    rcases List.mem_cons.mp h with h | h
    · rw [h, colFor_len]
      simp
    · exact ih (off + c.data_type.size) cd h

/-! ## Timestamp loop characterisation -/

theorem readTimestampsAux_eq (f : List Nat) (rs total : Nat) :
    ∀ (count row : Nat),
    readTimestampsAux f rs total row count =
      (List.range (min count (total - row))).map fun i => readLE f ((row + i) * rs) 8 := by
  intro count
  induction count with
  | zero => intro row; simp [readTimestampsAux]
  | succ count ih =>
    intro row
    by_cases h : total ≤ row
    · have : total - row = 0 := Nat.sub_eq_zero_of_le h
      simp [readTimestampsAux, if_pos h, this]
    · have hlt : row < total := Nat.lt_of_not_le h
      have hsub : total - row = (total - (row + 1)) + 1 := by omega
      simp only [readTimestampsAux, if_neg h]
      rw [hsub, Nat.succ_min_succ, List.range_succ_eq_map]
      simp only [List.map_cons, Nat.add_zero, List.map_map]
      congr 1
      rw [ih (row + 1)]
      apply List.map_congr_left
      intro j _
      simp only [Function.comp_apply]
      congr 2
      omega

/-! ## Claim theorems -/

/-- C4: for every schema, `row_size` equals 8 plus the sum over channels of
the width of the channel's value kind, where width(Bit) = 1, width(Int) = 4
and width(Float) = 8 bytes. -/
theorem row_size_formula (s : Schema) :
    s.row_size = 8 + (s.channels.map fun c => c.data_type.size).sum ∧
    DataType.size .Bit = 1 ∧ DataType.size .Int = 4 ∧ DataType.size .Float = 8 :=
  ⟨rfl, rfl, rfl, rfl⟩

/-- C3 counterexample: for the scenario schema (row size 21) and a 20-byte
file, appending a single extra trailing byte (1 ≤ 1 ≤ R-1 = 20) changes
`total_rows` from 0 to 1, so the claim "appending any 1..R-1 extra trailing
bytes never changes total_rows" is false as stated for arbitrary files. -/
theorem total_rows_append_changes :
    schemaScn.row_size = 21 ∧
    (BatchReader.new (List.replicate 20 0) schemaScn).total_rows ≠
      (BatchReader.new (List.replicate 20 0 ++ [0]) schemaScn).total_rows ∧
    (BatchReader.new (List.replicate 20 0) schemaScn).total_rows = 0 ∧
    (BatchReader.new (List.replicate 20 0 ++ [0]) schemaScn).total_rows = 1 := by
  decide

/-- C3 (amended): both decode paths compute `total_rows = floor(L / R)`
(for the bulk path: every output buffer has that many rows), the trailing
partial row is silently dropped rather than reported as an error, and
appending extra trailing bytes never changes `total_rows` provided the
extra bytes do not complete a row, i.e. `L mod R + e < R` (in particular
appending 1..R-1 bytes to a file of complete rows never changes it). -/
theorem total_rows_floor (f : List Nat) (s : Schema) (pad : List Nat) (cs : Nat)
    (hcs : 0 < cs) (hpad : f.length % s.row_size + pad.length < s.row_size) :
    (BatchReader.new f s).total_rows = f.length / s.row_size ∧
    (∀ cols, read_channels_chunked cs f s = some cols →
      ∀ cd ∈ cols, cd.len = f.length / s.row_size) ∧
    (BatchReader.new (f ++ pad) s).total_rows = (BatchReader.new f s).total_rows := by
  refine ⟨rfl, ?_, ?_⟩
  · intro cols hcols cd hcd
    rw [read_channels_chunked_eq cs hcs] at hcols
    injection hcols with hcols
    rw [← hcols] at hcd
    exact batchColsAux_len_mem f s.row_size 0 (f.length / s.row_size) s.channels 8 cd hcd
  · show (f ++ pad).length / s.row_size = f.length / s.row_size
    have hR : 0 < s.row_size := Nat.lt_of_le_of_lt (Nat.zero_le _) hpad
    rw [List.length_append]
    have hsplit : f.length + pad.length =
        (f.length % s.row_size + pad.length) + (f.length / s.row_size) * s.row_size := by
      have h1 := Nat.mod_add_div f.length s.row_size
      have h3 : s.row_size * (f.length / s.row_size) =
          (f.length / s.row_size) * s.row_size := Nat.mul_comm _ _
      omega
    rw [hsplit, Nat.add_mul_div_right _ _ hR, Nat.div_eq_of_lt hpad, Nat.zero_add]

/-- C3 amended witness: the scenario file (63 bytes, 3 complete rows of 21)
with a 10-byte pad and chunk size 7. -/
theorem total_rows_floor_witness :
    (0 < 7 ∧ fileScn3.length % schemaScn.row_size + 10 < schemaScn.row_size) ∧
    (BatchReader.new fileScn3 schemaScn).total_rows = fileScn3.length / schemaScn.row_size ∧
    (BatchReader.new (fileScn3 ++ [9, 9, 9, 9, 9, 9, 9, 9, 9, 9]) schemaScn).total_rows =
      (BatchReader.new fileScn3 schemaScn).total_rows :=
  ⟨⟨by decide, by decide⟩,
    (total_rows_floor fileScn3 schemaScn [9, 9, 9, 9, 9, 9, 9, 9, 9, 9] 7
      (by decide) (by decide)).1,
    (total_rows_floor fileScn3 schemaScn [9, 9, 9, 9, 9, 9, 9, 9, 9, 9] 7
      (by decide) (by decide)).2.2⟩

/-- C5: rows are decoded by reading the 8-byte little-endian f64 timestamp
first (at offset `row * row_size`) and each channel's value at the
cumulative offset (8 plus the widths of preceding channels in schema
order), as the equality of the imperative row loop with the spec-shaped
columnar decode states; and the concrete scenario: schema
`[bit, int, float]`, row size 21, 3-row file whose row 0 encodes timestamp
1000.0 (bit pattern 4652007308841189376), bit 1, int -5, float 2.5 (bit
pattern 4612811918334230528); appending 10 extra bytes leaves
`total_rows = 3`. -/
theorem scenario_decode :
    (∀ (f : List Nat) (rs a n : Nat) (s : Schema),
      decodeRows f rs a n (initBuffers s) = batchColsAux f rs a n s.channels 8) ∧
    schemaScn.row_size = 21 ∧
    fileScn3.length = 63 ∧
    (BatchReader.new fileScn3 schemaScn).total_rows = 3 ∧
    fileScnX = fileScn3 ++ [9, 9, 9, 9, 9, 9, 9, 9, 9, 9] ∧
    (BatchReader.new fileScnX schemaScn).total_rows = 3 ∧
    (BatchReader.new fileScnX schemaScn).read_timestamps 0 3 =
      [4652007308841189376, 578437695752307201, 5784376957523072010] ∧
    ((BatchReader.new fileScnX schemaScn).read_batch 3).1 =
      some [ChannelData.Bit [1, 0, 1], ChannelData.Int [-5, 1, 2],
        ChannelData.Float [4612811918334230528, 72623859790382856, 1301839424133073931]] := by
  refine ⟨fun f rs a n s => decodeRows_init f rs a n s, ?_⟩
  decide

/-- C6: from any reader state with cursor `c` strictly below `total_rows`,
`read_batch` decodes exactly `min batchSize (total_rows - c)` rows starting
at row `c` (one column per schema channel, timestamp excluded) and advances
the cursor by that amount; once the cursor has reached `total_rows`, every
`read_batch` call returns `none` and leaves the state unchanged, so the
exhausted state is terminal and idempotent, never an error. -/
theorem read_batch_contract (r : BatchReader) (bs : Nat) :
    (r.current_row < r.total_rows →
      r.read_batch bs =
        (some (batchColsAux r.mmap r.row_size r.current_row
            (min bs (r.total_rows - r.current_row)) r.schema.channels 8),
          { r with current_row := r.current_row + min bs (r.total_rows - r.current_row) })) ∧
    (r.total_rows ≤ r.current_row → r.read_batch bs = (none, r)) := by
  constructor
  · intro h
    simp only [BatchReader.read_batch, if_neg (Nat.not_le_of_lt h)]
    rw [decodeRows_init]
  · intro h
    simp only [BatchReader.read_batch, if_pos h]

/-- C6 witness: the scenario reader (3 rows, cursor 0) with batch size 2. -/
theorem read_batch_contract_witness :
    ((BatchReader.new fileScnX schemaScn).current_row <
        (BatchReader.new fileScnX schemaScn).total_rows) ∧
    (BatchReader.new fileScnX schemaScn).read_batch 2 =
      (some (batchColsAux fileScnX 21 0 (min 2 3) schemaScn.channels 8),
        { BatchReader.new fileScnX schemaScn with current_row := 0 + min 2 3 }) :=
  ⟨by decide, (read_batch_contract (BatchReader.new fileScnX schemaScn) 2).1 (by decide)⟩

/-- C7: `read_timestamps start count` returns the 8-byte little-endian
timestamps of rows `start, start+1, ...` in order, exactly
`min count (total_rows - start)` of them (0 when `start ≥ total_rows`),
and it neither reads nor modifies the reader's cursor: the result is
independent of `current_row` (and no state is returned at all). -/
theorem read_timestamps_spec (r : BatchReader) (start_row count : Nat) :
    r.read_timestamps start_row count =
      (List.range (min count (r.total_rows - start_row))).map
        (fun i => readLE r.mmap ((start_row + i) * r.row_size) 8) ∧
    ∀ c, BatchReader.read_timestamps { r with current_row := c } start_row count =
      r.read_timestamps start_row count :=
  ⟨readTimestampsAux_eq r.mmap r.row_size r.total_rows count start_row, fun _ => rfl⟩

/-- C8: in the bulk decoder, for every chunk in the chunk table and every
row in its range, the byte window sliced for that row
(`[row*row_size + 8, row*row_size + 8 + block_size)`) ends within the
mapped file, and the tag-mismatch branch of the final merge (modelled by
`none`) is unreachable: `read_channels_chunked` always returns `some`. -/
theorem bulk_bounds_and_merge (f : List Nat) (s : Schema) (cs : Nat) (hcs : 0 < cs) :
    (∀ p ∈ chunkList cs (f.length / s.row_size), ∀ row, p.1 ≤ row → row < p.2 →
      row * s.row_size + 8 + (s.channels.map fun c => c.data_type.size).sum ≤ f.length) ∧
    read_channels_chunked cs f s ≠ none := by
  constructor
  · intro p hp row _ h2
    rw [chunkList] at hp
    simp only [List.mem_map, List.mem_range] at hp
    obtain ⟨i, _, rfl⟩ := hp
    have hlt : row < f.length / s.row_size :=
      Nat.lt_of_lt_of_le h2 (Nat.min_le_right _ _)
    have hkey : (row + 1) * s.row_size ≤ f.length := by
      calc (row + 1) * s.row_size ≤ (f.length / s.row_size) * s.row_size :=
            Nat.mul_le_mul_right _ hlt
        _ ≤ f.length := Nat.div_mul_le_self _ _
    have hrs : s.row_size = 8 + (s.channels.map fun c => c.data_type.size).sum := rfl
    have hsm : (row + 1) * s.row_size = row * s.row_size + s.row_size := by
      rw [Nat.succ_mul]
    omega
  · rw [read_channels_chunked_eq cs hcs]
    simp

/-- C8 witness: the scenario file with chunk size 1. -/
theorem bulk_bounds_and_merge_witness :
    0 < 1 ∧ read_channels_chunked 1 fileScnX schemaScn ≠ none :=
  ⟨by decide, (bulk_bounds_and_merge fileScnX schemaScn 1 (by decide)).2⟩

/-- C9: from any state with cursor strictly below `total_rows`, a
`read_batch` call with batch size 0 returns `some` of one empty buffer per
channel and leaves the reader unchanged — it does not signal exhaustion, so
repeated zero-size calls never reach the exhausted state. -/
theorem read_batch_zero (r : BatchReader) (h : r.current_row < r.total_rows) :
    r.read_batch 0 = (some (initBuffers r.schema), r) ∧
    ∀ cd ∈ initBuffers r.schema, cd.len = 0 := by
  constructor
  · simp only [BatchReader.read_batch, if_neg (Nat.not_le_of_lt h)]
    rw [Nat.min_comm, Nat.min_zero]
    rfl
  · intro cd hcd
    rw [initBuffers] at hcd
    obtain ⟨c, _, rfl⟩ := List.mem_map.mp hcd
    cases c.data_type <;> rfl

/-- C9 witness: the scenario reader at cursor 0 with 3 rows available. -/
theorem read_batch_zero_witness :
    ((BatchReader.new fileScnX schemaScn).current_row <
        (BatchReader.new fileScnX schemaScn).total_rows) ∧
    (BatchReader.new fileScnX schemaScn).read_batch 0 =
      (some (initBuffers schemaScn), BatchReader.new fileScnX schemaScn) :=
  ⟨by decide, (read_batch_zero (BatchReader.new fileScnX schemaScn) (by decide)).1⟩

/-- C10: every `some` result of `read_batch` and every bulk-decoder output
has exactly one buffer per schema channel in schema order, each buffer's
runtime tag equal to the channel's declared kind and all buffers of equal
length (the number of rows decoded; the whole file for the bulk path), and
the reader's cursor never exceeds `total_rows` after any sequence of
`read_batch` calls. -/
theorem shape_invariants :
    (∀ (r : BatchReader) (bs : Nat) (cols : List ChannelData) (r2 : BatchReader),
      r.read_batch bs = (some cols, r2) →
      List.Forall₂ (fun cd c => cd.tag = c.data_type ∧
        cd.len = min bs (r.total_rows - r.current_row)) cols r.schema.channels) ∧
    (∀ (f : List Nat) (s : Schema) (cs : Nat) (cols : List ChannelData), 0 < cs →
      read_channels_chunked cs f s = some cols →
      List.Forall₂ (fun cd c => cd.tag = c.data_type ∧ cd.len = f.length / s.row_size)
        cols s.channels) ∧
    (∀ (f : List Nat) (s : Schema) (sizes : List Nat),
      (runBatches (BatchReader.new f s) sizes).2.current_row ≤
        (BatchReader.new f s).total_rows) := by
  refine ⟨?_, ?_, ?_⟩
  · intro r bs cols r2 h
    by_cases hc : r.total_rows ≤ r.current_row
    · rw [BatchReader.read_batch, if_pos hc] at h
      exact absurd (congrArg Prod.fst h) (by simp)
    · rw [BatchReader.read_batch, if_neg hc] at h
      have hcols := congrArg Prod.fst h
      simp only at hcols
      injection hcols with hcols
      rw [← hcols, decodeRows_init]
      exact batchColsAux_forall2 r.mmap r.row_size r.current_row _ r.schema.channels 8
  · intro f s cs cols hcs h
    rw [read_channels_chunked_eq cs hcs] at h
    injection h with h
    rw [← h]
    exact batchColsAux_forall2 f s.row_size 0 _ s.channels 8
  · intro f s sizes
    exact (runBatches_spec sizes (BatchReader.new f s) (Nat.zero_le _)).2.2.2.2.1

/-- C10 witness: the first conjunct applied to the scenario reader with
batch size 2. -/
theorem shape_invariants_witness :
    List.Forall₂ (fun cd c => cd.tag = c.data_type ∧ cd.len = min 2 3)
      (batchColsAux fileScnX 21 0 (min 2 3) schemaScn.channels 8) schemaScn.channels :=
  shape_invariants.1 (BatchReader.new fileScnX schemaScn) 2
    (batchColsAux fileScnX 21 0 (min 2 3) schemaScn.channels 8)
    { BatchReader.new fileScnX schemaScn with current_row := 0 + min 2 3 }
    (by decide)

/-- C2: the bulk decoder's output is identical for every positive choice of
the chunk-size constant held fixed during one decode, and the final
per-channel buffers are the chunk-index-order (= file-row-order)
concatenation of the per-chunk buffers: for any chunk size the result is
the columnar decode of rows `[0, total_rows)` in row order.  (Worker count
and completion order have no observable counterpart: the merge folds the
chunk results strictly in chunk index order.) -/
theorem chunk_size_independence (f : List Nat) (s : Schema) (cs1 cs2 : Nat)
    (h1 : 0 < cs1) (h2 : 0 < cs2) :
    read_channels_chunked cs1 f s = read_channels_chunked cs2 f s ∧
    read_channels_chunked cs1 f s = some (batchCols s f 0 (f.length / s.row_size)) := by
  have e1 := read_channels_chunked_eq cs1 h1 f s
  have e2 := read_channels_chunked_eq cs2 h2 f s
  exact ⟨e1.trans e2.symm, e1⟩

/-- C2 witness: chunk sizes 1 and 7 on the scenario file. -/
theorem chunk_size_independence_witness :
    (0 < 1 ∧ 0 < 7) ∧
    read_channels_chunked 1 fileScnX schemaScn = read_channels_chunked 7 fileScnX schemaScn :=
  ⟨⟨by decide, by decide⟩,
    (chunk_size_independence fileScnX schemaScn 1 7 (by decide) (by decide)).1⟩

/-- C1: driving the streaming batch reader to exhaustion with any sequence
of positive batch sizes and concatenating the results in call order yields
exactly the bulk decoder's output: the same `some` value, hence the same
number of buffers, the same tags and the same values at every row index. -/
theorem streaming_equals_bulk (f : List Nat) (s : Schema) (sizes : List Nat)
    (hpos : ∀ b ∈ sizes, 0 < b)
    (hexh : (runBatches (BatchReader.new f s) sizes).2.current_row =
      (BatchReader.new f s).total_rows) :
    mergeAll (initBuffers s) (runBatches (BatchReader.new f s) sizes).1 =
      read_channels f s := by
  have H := (runBatches_spec sizes (BatchReader.new f s) (Nat.zero_le _)).2.2.2.2.2
  rw [hexh] at H
  rw [read_channels, read_channels_chunked_eq 10000 (by norm_num) f s, batchCols]
  rw [initBuffers, initBuffers_eq_batchColsAux f s.row_size 0 s.channels 8]
  exact H

/-- C1 witness: batch sizes `[1, 3]` exhaust the 3-row scenario file and
reproduce the bulk decode. -/
theorem streaming_equals_bulk_witness :
    ((0 < (1 : Nat) ∧ 0 < (3 : Nat)) ∧
      (runBatches (BatchReader.new fileScnX schemaScn) [1, 3]).2.current_row =
        (BatchReader.new fileScnX schemaScn).total_rows) ∧
    mergeAll (initBuffers schemaScn)
        (runBatches (BatchReader.new fileScnX schemaScn) [1, 3]).1 =
      read_channels fileScnX schemaScn :=
  ⟨⟨⟨by decide, by decide⟩, by decide⟩,
    streaming_equals_bulk fileScnX schemaScn [1, 3] (by decide) (by decide)⟩
